import Mathlib

/-!
Shallow embedding of `run_command` from `src/ocs_ci/helpers/performance_lib.py`
(repository Avilir/ocs-ci) together with proofs settling the frozen claims
about its specification.

Python strings are modelled as `List Char` (named `Str` below); machine-level
byte decoding is abstracted away (the process oracle returns decoded text).
The child process is modelled as an oracle `SpawnCall → CP` mapping the exact
spawn invocation (argument vector, timeout, forwarded keyword options) to a
`CompletedProcess` value.  Logging is modelled as the ordered list of leveled
messages the function hands to the logging sink.
-/

/-- Python strings, modelled as lists of characters. -/
abbrev Str := List Char

/-- Coercion from Lean string literals to the `Str` model. -/
def lit (s : String) : Str := s.data

/-- The whitespace characters recognised by Python `str.split()` with no
separator argument (ASCII subset: space, tab, newline, carriage return,
vertical tab, form feed). -/
def isPySpace (c : Char) : Bool :=
  c = ' ' || c = '\t' || c = '\n' || c = '\r' || c = Char.ofNat 11 || c = Char.ofNat 12

/-- Worker for `pySplit`: scans the characters, accumulating the current token
in reverse; whitespace runs separate tokens and empty tokens are dropped,
exactly as Python `str.split()` does. -/
def pySplitGo : List Char → Str → List Str
  | [], acc => if acc.isEmpty then [] else [acc.reverse]
  | c :: cs, acc =>
    if isPySpace c then
      if acc.isEmpty then pySplitGo cs [] else acc.reverse :: pySplitGo cs []
    else pySplitGo cs (c :: acc)

/-- Python `cmd.split()` (no separator): split on runs of whitespace,
discarding empty tokens. Used at line 88 of the source. -/
def pySplit (s : Str) : List Str := pySplitGo s []

/-- Join tokens with single spaces; the canonical well-formed string command
corresponding to a pre-split argument vector. -/
def joinSp : List Str → Str
  | [] => []
  | [t] => t
  | t :: t2 :: ts => t ++ ' ' :: joinSp (t2 :: ts)

/-- Python `output.split("\n")` with an explicit separator: every separator
produces a boundary, empty pieces are kept, and the empty string yields a
single empty piece. Used at line 140 of the source. -/
def splitNl : Str → List Str
  | [] => [[]]
  | c :: cs =>
    if c = '\n' then [] :: splitNl cs
    else
      match splitNl cs with
      | [] => [[c]]
      | t :: ts => (c :: t) :: ts

/-- Python `list.pop()` as used at line 141 of the source: removes the last
element; on an empty list Python raises `IndexError`, modelled as `none`. -/
def pyPop (l : List Str) : Option (List Str) :=
  if l.isEmpty then none else some l.dropLast

/-- Worker for `replaceAll`. The first argument is recursion fuel bounding the
number of consumed characters; it keeps the recursion structural (and hence
kernel-evaluable) and never runs out when initialised with the string length,
since every step consumes at least one character. -/
def replaceAllGo : Nat → Str → Str → Str → Str
  | _, s, [], _ => s
  | _, [], _ :: _, _ => []
  | 0, c :: cs, _ :: _, _ => c :: cs
  | n + 1, c :: cs, p :: ps, repl =>
    if (c :: cs).take (p :: ps).length = p :: ps then
      repl ++ replaceAllGo n ((c :: cs).drop (p :: ps).length) (p :: ps) repl
    else
      c :: replaceAllGo n cs (p :: ps) repl

/-- Python `plaintext.replace(pat, repl)`: leftmost, non-overlapping
replacement of every occurrence of `pat` by `repl`; with an empty pattern the
model returns the input unchanged (secrets are non-empty strings). -/
def replaceAll (s pat repl : Str) : Str := replaceAllGo s.length s pat repl

/-- The five-asterisk mask Python `mask_secrets` substitutes for each secret. -/
def star5 : Str := List.replicate 5 '*'

/-- Modelled from the spec: `mask_secrets` lives in `ocs_ci.utility.utils`,
which is not part of the provided sources. Per the spec it replaces, in a
string, each occurrence of each secret with a fixed-width asterisk mask, and
is the identity when the secrets list is empty (Python `secrets=None` is
modelled as the empty list). -/
def mask_secrets (t : Str) (secrets : List Str) : Str :=
  secrets.foldl (fun acc q => replaceAll acc q star5) t

/-- The `cmd` argument of `run_command`: a Python string, a Python list of
strings, or any other value (modelled by its textual rendering, which is all
the function ever uses of it). -/
inductive CmdInput where
  | str (s : Str)
  | list (l : List Str)
  | other (r : Str)
deriving DecidableEq

/-- Shape-preserving application of `mask_secrets` to the command argument,
as the spec describes for the secret-masking collaborator. -/
def maskCmd : CmdInput → List Str → CmdInput
  | .str s, secrets => .str (mask_secrets s secrets)
  | .list l, secrets => .list (l.map (fun x => mask_secrets x secrets))
  | .other r, _ => .other r

/-- Python `repr` quoting of one string inside a list rendering. -/
def quoteStr (s : Str) : Str := Char.ofNat 39 :: s ++ [Char.ofNat 39]

/-- Comma-space joining used by Python list rendering. -/
def joinComma : List Str → Str
  | [] => []
  | [x] => x
  | x :: x2 :: xs => x ++ lit ", " ++ joinComma (x2 :: xs)

/-- How a Python f-string renders the command argument: a string renders as
itself, a list as its `repr` (brackets, quotes, comma separators), anything
else by its textual rendering. -/
def renderCmd : CmdInput → Str
  | .str s => s
  | .list l => '[' :: joinComma (l.map quoteStr) ++ [']']
  | .other r => r

/-- A value stored in the keyword-options bag: the `subprocess.PIPE` sentinel,
a string, or a number. -/
inductive KwVal where
  | pipe
  | str (s : Str)
  | num (n : Int)
deriving DecidableEq

/-- The keyword-options bag (`**kwargs`), modelled as an association list with
unique keys in insertion order, matching Python dict semantics. -/
abbrev Kwargs := List (Str × KwVal)

/-- Python `kwargs[k]` lookup (as an `Option`). -/
def getKey : Kwargs → Str → Option KwVal
  | [], _ => none
  | (k2, v) :: m, k => if k2 = k then some v else getKey m k

/-- Python `del kwargs[k]`: removes the binding of `k` (keys are unique, so
removing every binding of `k` is the same operation). -/
def delKey : Kwargs → Str → Kwargs
  | [], _ => []
  | (k2, v) :: m, k => if k2 = k then delKey m k else (k2, v) :: delKey m k

/-- Python `kwargs[k] = v`: replaces the value in place if the key is present,
otherwise appends the new binding, preserving insertion order. -/
def setKey : Kwargs → Str → KwVal → Kwargs
  | [], k, v => [(k, v)]
  | (k2, v2) :: m, k, v => if k2 = k then (k, v) :: m else (k2, v2) :: setKey m k v

/-- Lines 94-95 of the source: force `stdout`, `stderr` and `stdin` to
`subprocess.PIPE` in the options bag. -/
def setPipes (m : Kwargs) : Kwargs :=
  setKey (setKey (setKey m (lit "stdout") .pipe) (lit "stderr") .pipe) (lit "stdin") .pipe

/-- Lines 97-99 of the source: if the options bag holds key `"out_format"`,
its value supersedes the positional `out_format` argument and the key is
deleted from the bag; otherwise the positional value (a string) is used. -/
def popFmt (m : Kwargs) (posFmt : Str) : KwVal × Kwargs :=
  match getKey m (lit "out_format") with
  | some v => (v, delKey m (lit "out_format"))
  | none => (KwVal.str posFmt, m)

/-- `subprocess.CompletedProcess` with decoded text streams. -/
structure CP where
  args : List Str
  returncode : Int
  stdout : Str
  stderr : Str
deriving DecidableEq

/-- The exact invocation handed to `subprocess.run`: argument vector, timeout
and the forwarded keyword options. -/
structure SpawnCall where
  args : List Str
  timeout : Nat
  kwargs : Kwargs
deriving DecidableEq

/-- Levels of the logging sink used by the source. -/
inductive LogLevel where
  | debug
  | info
  | warning
  | error
deriving DecidableEq

/-- One message handed to the logging sink. -/
structure LogMsg where
  level : LogLevel
  msg : Str
deriving DecidableEq

/-- The errors `run_command` can raise after the process has completed:
`CommandFailed` (line 125), `IndexError` from `list.pop` (line 141), and
decode failures of `json.loads` / `yaml.safe_load` (lines 144/147). -/
inductive RunError where
  | commandFailed (msg : Str)
  | indexError
  | jsonError
  | yamlError
deriving DecidableEq

/-- The possible return values of `run_command`, per its docstring: a string,
a list of lines, the exit code, the raw `CompletedProcess`, or a parsed
JSON/YAML value (parsing is abstracted by oracles producing `α` / `β`). -/
inductive Output (α β : Type) where
  | str (s : Str)
  | list (l : List Str)
  | exitCode (n : Int)
  | cpobj (c : CP)
  | json (v : α)
  | yaml (v : β)
deriving DecidableEq

/-- Everything observable about one invocation of `run_command`: the returned
value or raised error, the spawn invocation (if any), and the ordered log. -/
structure RunOutcome (α β : Type) where
  result : Except RunError (Output α β)
  spawned : Option SpawnCall
  logs : List LogMsg

/-- Rendering of an integer in an f-string (Python `str(n)` agrees with Lean
`toString` on integers). -/
def fmtInt (n : Int) : Str := (toString n).data

/-- Rendering of a `KwVal` in an f-string (`subprocess.PIPE` prints as -1). -/
def renderKw : KwVal → Str
  | .pipe => lit "-1"
  | .str s => s
  | .num n => fmtInt n

/-- Lines 94-149 of the source: the part of `run_command` reached once the
command has been normalised to an argument vector `command`. Forces the three
pipe options, resolves the effective output format, spawns the process via the
oracle, emits the stdout/stderr/returncode logs, and branches on the exit
code exactly as the Python does. -/
def run_body {α β : Type} (jsonLoads : Str → Except Unit α) (yamlLoad : Str → Except Unit β)
    (log1 : LogMsg) (masked_cmd : Str) (command : List Str) (timeout : Nat)
    (out_format : Str) (secrets : List Str) (ignore_error : Bool) (kwargs : Kwargs)
    (spawn : SpawnCall → CP) : RunOutcome α β :=
  let p := popFmt (setPipes kwargs) out_format
  let eff := p.1
  let sc : SpawnCall := ⟨command, timeout, p.2⟩
  let cp := spawn sc
  let output := cp.stdout
  let err := cp.stderr
  let masked_stdout := mask_secrets output secrets
  let masked_stderr := mask_secrets err secrets
  let logs : List LogMsg :=
    [log1, ⟨.info, lit "Formatting output as " ++ renderKw eff⟩,
      if 0 < output.length then ⟨.debug, lit "Command stdout: " ++ masked_stdout⟩
      else ⟨.debug, lit "Command stdout is empty"⟩,
      if 0 < err.length then ⟨.warning, lit "Command stderr: " ++ masked_stderr⟩
      else ⟨.debug, lit "Command stderr is empty"⟩,
      ⟨.debug, lit "Command return code: " ++ fmtInt cp.returncode⟩] ++
    (if cp.returncode ≠ 0 then
      [⟨.error,
        lit "Command finished with non zero (" ++ fmtInt cp.returncode ++ lit "): " ++ err⟩]
    else [])
  let result : Except RunError (Output α β) :=
    if cp.returncode ≠ 0 then
      if ignore_error = false then
        .error (.commandFailed
          (lit "Error during execution of command: " ++ masked_cmd ++
            lit ".\nError is " ++ masked_stderr))
      else if eff = .str (lit "cpobj") then .ok (.cpobj cp)
      else
        .ok (.str (output ++ lit "Error in command (" ++ fmtInt cp.returncode ++
          lit "): " ++ err))
    else
      if eff = .str (lit "exit_code") then .ok (.exitCode cp.returncode)
      else if eff = .str (lit "cpobj") then .ok (.cpobj cp)
      else if eff = .str (lit "list") then
        match pyPop (splitNl output) with
        | none => .error .indexError
        | some l => .ok (.list l)
      else if eff = .str (lit "json") then
        match jsonLoads output with
        | .ok v => .ok (.json v)
        | .error _ => .error .jsonError
      else if eff = .str (lit "yaml") then
        match yamlLoad output with
        | .ok v => .ok (.yaml v)
        | .error _ => .error .yamlError
      else .ok (.str output)
  ⟨result, some sc, logs⟩

/-- Lines 85-149 of the source, `run_command`: masks and logs the command,
normalises it to an argument vector (a string is split on whitespace, a list
is used verbatim, anything else short-circuits to the literal string
`"Error in command"` without spawning), then delegates to `run_body`. -/
def run_command {α β : Type} (jsonLoads : Str → Except Unit α) (yamlLoad : Str → Except Unit β)
    (cmd : CmdInput) (timeout : Nat) (out_format : Str) (secrets : List Str)
    (ignore_error : Bool) (kwargs : Kwargs) (spawn : SpawnCall → CP) : RunOutcome α β :=
  let masked_cmd := renderCmd (maskCmd cmd secrets)
  let log1 : LogMsg := ⟨.info, lit "Executing command: " ++ masked_cmd⟩
  match cmd with
  | .other _ => ⟨.ok (.str (lit "Error in command")), none, [log1]⟩
  | .str s =>
    run_body jsonLoads yamlLoad log1 masked_cmd (pySplit s) timeout out_format secrets
      ignore_error kwargs spawn
  | .list l =>
    run_body jsonLoads yamlLoad log1 masked_cmd l timeout out_format secrets
      ignore_error kwargs spawn

/-- A trivial JSON/YAML parsing oracle used to instantiate witnesses. -/
def noParse (_ : Str) : Except Unit Unit := .error ()

/-- The shapes of the messages that `run_command` hands to the logging sink at
info, debug and warning level: each embedded command, stdout or stderr text
passes through `mask_secrets` first (lines 85-118 of the source). -/
def maskedLogForms (cmd : CmdInput) (secrets : List Str) (out_format : Str)
    (kwargs : Kwargs) (cp : CP) : List Str :=
  [lit "Executing command: " ++ renderCmd (maskCmd cmd secrets),
    lit "Formatting output as " ++ renderKw (popFmt (setPipes kwargs) out_format).1,
    lit "Command stdout: " ++ mask_secrets cp.stdout secrets,
    lit "Command stdout is empty",
    lit "Command stderr: " ++ mask_secrets cp.stderr secrets,
    lit "Command stderr is empty",
    lit "Command return code: " ++ fmtInt cp.returncode]


theorem getKey_setKey_ne (m : Kwargs) (k k2 : Str) (v : KwVal) (h : k ≠ k2) :
    getKey (setKey m k v) k2 = getKey m k2 := by
  induction m with
  | nil => simp [setKey, getKey, h]
  | cons p m ih =>
    obtain ⟨k3, v3⟩ := p
    by_cases h3 : k3 = k
    · subst h3
      simp [setKey, getKey, h]
    · simp only [setKey, if_neg h3, getKey]
      by_cases h4 : k3 = k2
      · simp [h4]
      · simp [h4, ih]

theorem getKey_delKey_self (m : Kwargs) (k : Str) : getKey (delKey m k) k = none := by
  induction m with
  | nil => simp [delKey, getKey]
  | cons p m ih =>
    obtain ⟨k3, v3⟩ := p
    by_cases h3 : k3 = k
    · simp [delKey, h3, ih]
    · simp [delKey, getKey, h3, ih]

theorem delKey_setKey_ne (m : Kwargs) (k k2 : Str) (v : KwVal) (h : k ≠ k2) :
    delKey (setKey m k v) k2 = setKey (delKey m k2) k v := by
  induction m with
  | nil => simp [setKey, delKey, h]
  | cons p m ih =>
    obtain ⟨k3, v3⟩ := p
    by_cases h3 : k3 = k
    · subst h3
      simp [setKey, delKey, h]
    · by_cases h4 : k3 = k2
      · subst h4
        simp [setKey, delKey, h3, Ne.symm h, ih]
      · simp [setKey, delKey, h3, h4, ih]

theorem getKey_setPipes (m : Kwargs) (k : Str)
    (h1 : k ≠ lit "stdout") (h2 : k ≠ lit "stderr") (h3 : k ≠ lit "stdin") :
    getKey (setPipes m) k = getKey m k := by
  unfold setPipes
  rw [getKey_setKey_ne _ _ _ _ (fun hh => h3 hh.symm),
    getKey_setKey_ne _ _ _ _ (fun hh => h2 hh.symm),
    getKey_setKey_ne _ _ _ _ (fun hh => h1 hh.symm)]

theorem delKey_setPipes (m : Kwargs) (k : Str)
    (h1 : k ≠ lit "stdout") (h2 : k ≠ lit "stderr") (h3 : k ≠ lit "stdin") :
    delKey (setPipes m) k = setPipes (delKey m k) := by
  unfold setPipes
  rw [delKey_setKey_ne _ _ _ _ (fun hh => h3 hh.symm),
    delKey_setKey_ne _ _ _ _ (fun hh => h2 hh.symm),
    delKey_setKey_ne _ _ _ _ (fun hh => h1 hh.symm)]

theorem splitNl_ne_nil (s : Str) : splitNl s ≠ [] := by
  cases s with
  | nil => simp [splitNl]
  | cons c cs =>
    by_cases h : c = '\n'
    · simp [splitNl, h]
    · simp only [splitNl, if_neg h]
      cases splitNl cs <;> simp

theorem splitNl_append_newline (s : Str) : splitNl (s ++ ['\n']) = splitNl s ++ [[]] := by
  induction s with
  | nil => simp [splitNl]
  | cons c cs ih =>
    by_cases h : c = '\n'
    · simp [splitNl, h, ih]
    · simp only [List.cons_append, splitNl, if_neg h]
      rcases hcs : splitNl cs with _ | ⟨t, ts⟩
      · exact absurd hcs (splitNl_ne_nil cs)
      · simp only [List.append_eq]
        rw [ih, hcs]
        simp

/-- Decidable equality for `Except`, needed to evaluate concrete results. -/
instance {ε α : Type} [DecidableEq ε] [DecidableEq α] : DecidableEq (Except ε α) :=
  fun a b =>
    match a, b with
    | .error x, .error y => decidable_of_iff (x = y) (by simp)
    | .ok x, .ok y => decidable_of_iff (x = y) (by simp)
    | .error _, .ok _ => isFalse (fun h => Except.noConfusion h)
    | .ok _, .error _ => isFalse (fun h => Except.noConfusion h)

theorem replaceAllGo_fuel (pat repl : Str) :
    ∀ n m s, s.length ≤ n → s.length ≤ m →
      replaceAllGo n s pat repl = replaceAllGo m s pat repl := by
  intro n
  induction n with
  | zero =>
    intro m s hn hm
    have hs : s = [] := List.eq_nil_of_length_eq_zero (Nat.le_zero.mp hn)
    subst hs
    cases pat <;> cases m <;> simp [replaceAllGo]
  | succ n ih =>
    intro m s hn hm
    cases pat with
    | nil => cases s <;> cases m <;> simp [replaceAllGo]
    | cons p ps =>
      cases s with
      | nil => cases m <;> simp [replaceAllGo]
      | cons c cs =>
        cases m with
        | zero => simp at hm
        | succ m =>
          simp only [replaceAllGo]
          by_cases htake : (c :: cs).take (p :: ps).length = p :: ps
          · rw [if_pos htake, if_pos htake]
            congr 1
            apply ih
            · rw [List.length_drop]
              simp only [List.length_cons] at hn ⊢
              omega
            · rw [List.length_drop]
              simp only [List.length_cons] at hm ⊢
              omega
          · rw [if_neg htake, if_neg htake]
            congr 1
            apply ih
            · simp only [List.length_cons] at hn
              omega
            · simp only [List.length_cons] at hm
              omega

theorem replaceAll_nil_pat (s r : Str) : replaceAll s [] r = s := by
  cases s <;> simp [replaceAll, replaceAllGo]

theorem replaceAll_nil_src (p : Char) (ps r : Str) : replaceAll [] (p :: ps) r = [] := by
  simp [replaceAll, replaceAllGo]

theorem replaceAll_pos (c : Char) (cs : Str) (p : Char) (ps r : Str)
    (h : (c :: cs).take (p :: ps).length = p :: ps) :
    replaceAll (c :: cs) (p :: ps) r =
      r ++ replaceAll ((c :: cs).drop (p :: ps).length) (p :: ps) r := by
  show replaceAllGo (cs.length + 1) (c :: cs) (p :: ps) r = _
  rw [replaceAllGo, if_pos h]
  congr 1
  apply replaceAllGo_fuel
  · rw [List.length_drop]
    simp only [List.length_cons]
    omega
  · exact le_refl _

theorem replaceAll_neg (c : Char) (cs : Str) (p : Char) (ps r : Str)
    (h : ¬ (c :: cs).take (p :: ps).length = p :: ps) :
    replaceAll (c :: cs) (p :: ps) r = c :: replaceAll cs (p :: ps) r := by
  show replaceAllGo (cs.length + 1) (c :: cs) (p :: ps) r = _
  rw [replaceAllGo, if_neg h]
  rfl

theorem star5_cons : star5 = '*' :: List.replicate 4 '*' := rfl

/-- A star-free prefix of the result of a replacement pass is a prefix of the
input: the pass only ever prepends untouched input characters or asterisks. -/
theorem starfree_isPre_replaceAll (pat : Str) :
    ∀ n s q, s.length ≤ n → (∀ c ∈ q, c ≠ '*') → q <+: replaceAll s pat star5 → q <+: s := by
  intro n
  induction n with
  | zero =>
    intro s q hlen hq hpre
    have hs : s = [] := List.eq_nil_of_length_eq_zero (Nat.le_zero.mp hlen)
    subst hs
    cases pat with
    | nil => simpa [replaceAll_nil_pat] using hpre
    | cons p ps => simpa [replaceAll_nil_src] using hpre
  | succ n ih =>
    intro s q hlen hq hpre
    cases pat with
    | nil => simpa [replaceAll_nil_pat] using hpre
    | cons p ps =>
      cases s with
      | nil => simpa [replaceAll_nil_src] using hpre
      | cons c cs =>
        by_cases htake : (c :: cs).take (p :: ps).length = p :: ps
        · rw [replaceAll_pos c cs p ps star5 htake] at hpre
          cases q with
          | nil => exact List.nil_prefix
          | cons a q2 =>
            rw [star5_cons, List.cons_append, List.cons_prefix_cons] at hpre
            exact absurd hpre.1 (hq a (List.mem_cons_self a q2))
        · rw [replaceAll_neg c cs p ps star5 htake] at hpre
          cases q with
          | nil => exact List.nil_prefix
          | cons a q2 =>
            rw [List.cons_prefix_cons] at hpre
            have h2 : q2 <+: cs := by
              apply ih cs q2 (by simp only [List.length_cons] at hlen; omega)
                (fun x hx => hq x (List.mem_cons_of_mem a hx)) hpre.2
            exact List.cons_prefix_cons.mpr ⟨hpre.1, h2⟩

/-- A star-free infix of an all-star block followed by a tail is an infix of
the tail (or empty). -/
theorem starfree_infix_starblock {q : Str} (hq : ∀ c ∈ q, c ≠ '*') (hne : q ≠ []) :
    ∀ A B, (∀ c ∈ A, c = '*') → q <:+: A ++ B → q <:+: B := by
  intro A
  induction A with
  | nil => intro B _ h; simpa using h
  | cons a A2 ihA =>
    intro B hA h
    rw [List.cons_append, List.infix_cons_iff] at h
    rcases h with h | h
    · cases q with
      | nil => exact absurd rfl hne
      | cons b q2 =>
        rw [List.cons_prefix_cons] at h
        exact absurd (h.1.trans (hA a (List.mem_cons_self a A2))) (hq b (List.mem_cons_self b q2))
    · exact ihA B (fun c hc => hA c (List.mem_cons_of_mem a hc)) h

/-- A star-free infix of the result of a replacement pass is an infix of the
input string. -/
theorem starfree_infix_replaceAll (pat : Str) :
    ∀ n s q, s.length ≤ n → (∀ c ∈ q, c ≠ '*') → q <:+: replaceAll s pat star5 → q <:+: s := by
  intro n
  induction n with
  | zero =>
    intro s q hlen hq hinf
    have hs : s = [] := List.eq_nil_of_length_eq_zero (Nat.le_zero.mp hlen)
    subst hs
    cases pat with
    | nil => simpa [replaceAll_nil_pat] using hinf
    | cons p ps => simpa [replaceAll_nil_src] using hinf
  | succ n ih =>
    intro s q hlen hq hinf
    cases pat with
    | nil => simpa [replaceAll_nil_pat] using hinf
    | cons p ps =>
      cases s with
      | nil => simpa [replaceAll_nil_src] using hinf
      | cons c cs =>
        by_cases hqnil : q = []
        · subst hqnil; exact List.nil_infix
        by_cases htake : (c :: cs).take (p :: ps).length = p :: ps
        · rw [replaceAll_pos c cs p ps star5 htake] at hinf
          have h2 : q <:+: replaceAll ((c :: cs).drop (p :: ps).length) (p :: ps) star5 :=
            starfree_infix_starblock hq hqnil star5 _ (by simp [star5]) hinf
          have h3 : q <:+: (c :: cs).drop (p :: ps).length := by
            apply ih _ q _ hq h2
            rw [List.length_drop]
            simp only [List.length_cons] at hlen ⊢
            omega
          exact h3.trans (List.drop_suffix _ _).isInfix
        · rw [replaceAll_neg c cs p ps star5 htake] at hinf
          rw [List.infix_cons_iff] at hinf
          rcases hinf with h | h
          · cases q with
            | nil => exact absurd rfl hqnil
            | cons a q2 =>
              rw [List.cons_prefix_cons] at h
              have h2 : q2 <+: cs :=
                starfree_isPre_replaceAll (p :: ps) n cs q2
                  (by simp only [List.length_cons] at hlen; omega)
                  (fun x hx => hq x (List.mem_cons_of_mem a hx)) h.2
              exact (List.cons_prefix_cons.mpr ⟨h.1, h2⟩).isInfix
          · have h2 : q <:+: cs := by
              apply ih cs q (by simp only [List.length_cons] at hlen; omega) hq h
            exact List.infix_cons h2

/-- One replacement pass removes every occurrence of a non-empty star-free
pattern. -/
theorem not_infix_replaceAll_self {p : Char} {ps : Str} (hq : ∀ c ∈ p :: ps, c ≠ '*') :
    ∀ n s, s.length ≤ n → ¬ (p :: ps) <:+: replaceAll s (p :: ps) star5 := by
  intro n
  induction n with
  | zero =>
    intro s hlen hinf
    have hs : s = [] := List.eq_nil_of_length_eq_zero (Nat.le_zero.mp hlen)
    subst hs
    rw [replaceAll_nil_src] at hinf
    simp at hinf
  | succ n ih =>
    intro s hlen hinf
    cases s with
    | nil =>
      rw [replaceAll_nil_src] at hinf
      simp at hinf
    | cons c cs =>
      by_cases htake : (c :: cs).take (p :: ps).length = p :: ps
      · rw [replaceAll_pos c cs p ps star5 htake] at hinf
        have h2 := starfree_infix_starblock hq (by simp) star5 _ (by simp [star5]) hinf
        apply ih ((c :: cs).drop (p :: ps).length) _ h2
        rw [List.length_drop]
        simp only [List.length_cons] at hlen ⊢
        omega
      · rw [replaceAll_neg c cs p ps star5 htake] at hinf
        rw [List.infix_cons_iff] at hinf
        rcases hinf with h | h
        · rw [List.cons_prefix_cons] at h
          have h2 : ps <+: cs :=
            starfree_isPre_replaceAll (p :: ps) n cs ps
              (by simp only [List.length_cons] at hlen; omega)
              (fun x hx => hq x (List.mem_cons_of_mem p hx)) h.2
          have h3 : (p :: ps) <+: (c :: cs) := List.cons_prefix_cons.mpr ⟨h.1, h2⟩
          exact htake (List.prefix_iff_eq_take.mp h3).symm
        · exact ih cs (by simp only [List.length_cons] at hlen; omega) h

/-- A star-free infix of the fully masked text is an infix of the original. -/
theorem starfree_infix_mask_secrets {q : Str} (hq : ∀ c ∈ q, c ≠ '*') :
    ∀ (secrets : List Str) (x : Str), q <:+: mask_secrets x secrets → q <:+: x := by
  intro secrets
  induction secrets with
  | nil => intro x h; simpa [mask_secrets] using h
  | cons p rest ih =>
    intro x h
    have h2 : q <:+: replaceAll x p star5 := by
      have := ih (replaceAll x p star5)
      simp only [mask_secrets, List.foldl_cons] at h
      exact this h
    exact starfree_infix_replaceAll p x.length x q (le_refl _) hq h2

/-- Masking is effective: when every secret is non-empty and asterisk-free, no
secret occurs in any masked text. -/
theorem secret_not_infix_mask {secrets : List Str}
    (hs : ∀ q ∈ secrets, q ≠ [] ∧ ∀ c ∈ q, c ≠ '*') :
    ∀ q ∈ secrets, ∀ x : Str, ¬ q <:+: mask_secrets x secrets := by
  induction secrets with
  | nil => intro q hq; simp at hq
  | cons p rest ih =>
    intro q hq x hinf
    simp only [mask_secrets, List.foldl_cons] at hinf
    rcases List.mem_cons.mp hq with h | h
    · subst h
      obtain ⟨hne, hstar⟩ := hs q (List.mem_cons_self q rest)
      cases q with
      | nil => exact hne rfl
      | cons p0 ps0 =>
        have h2 : (p0 :: ps0) <:+: replaceAll x (p0 :: ps0) star5 :=
          starfree_infix_mask_secrets hstar rest _ hinf
        exact not_infix_replaceAll_self hstar x.length x (le_refl _) h2
    · exact ih (fun q2 hq2 => hs q2 (List.mem_cons_of_mem p hq2)) q h
        (replaceAll x p star5) hinf

theorem pySplitGo_token (t : Str) (ht : ∀ c ∈ t, isPySpace c = false) :
    ∀ rest acc, pySplitGo (t ++ rest) acc = pySplitGo rest (t.reverse ++ acc) := by
  induction t with
  | nil => intro rest acc; simp
  | cons c t2 ih =>
    intro rest acc
    have hc : isPySpace c = false := ht c (List.mem_cons_self c t2)
    simp only [List.cons_append, pySplitGo, hc, Bool.false_eq_true, if_false, List.append_eq]
    rw [ih (fun x hx => ht x (List.mem_cons_of_mem c hx)) rest (c :: acc)]
    simp

theorem pySplit_joinSp (toks : List Str)
    (h : ∀ t ∈ toks, t ≠ [] ∧ ∀ c ∈ t, isPySpace c = false) :
    pySplit (joinSp toks) = toks := by
  induction toks with
  | nil => rfl
  | cons t ts ih =>
    obtain ⟨htne, htsp⟩ := h t (List.mem_cons_self t ts)
    cases ts with
    | nil =>
      show pySplitGo (joinSp [t]) [] = [t]
      have : joinSp [t] = t ++ [] := by simp [joinSp]
      rw [this, pySplitGo_token t htsp [] []]
      have hrev : t.reverse.isEmpty = false := by
        cases ht2 : t.reverse with
        | nil => exact absurd (List.reverse_eq_nil_iff.mp ht2) htne
        | cons a b => rfl
      simp [pySplitGo, hrev, List.isEmpty_iff]
    | cons t2 ts2 =>
      show pySplitGo (joinSp (t :: t2 :: ts2)) [] = t :: t2 :: ts2
      have hj : joinSp (t :: t2 :: ts2) = t ++ ' ' :: joinSp (t2 :: ts2) := by
        simp [joinSp]
      rw [hj, pySplitGo_token t htsp _ []]
      have hrev : t.reverse.isEmpty = false := by
        cases ht2 : t.reverse with
        | nil => exact absurd (List.reverse_eq_nil_iff.mp ht2) htne
        | cons a b => rfl
      simp only [List.append_nil, pySplitGo, isPySpace]
      simp only [hrev, Bool.false_eq_true, if_false]
      have : pySplitGo (joinSp (t2 :: ts2)) [] = t2 :: ts2 :=
        ih (fun x hx => h x (List.mem_cons_of_mem t hx))
      simp [this]

theorem getKey_popFmt_none (kwargs : Kwargs) (posFmt : Str)
    (hkw : getKey kwargs (lit "out_format") = none) :
    popFmt (setPipes kwargs) posFmt = (KwVal.str posFmt, setPipes kwargs) := by
  unfold popFmt
  rw [getKey_setPipes _ _ (by decide) (by decide) (by decide), hkw]

theorem popFmt_setPipes_str (kwargs : Kwargs) (posFmt v : Str)
    (hkw : getKey kwargs (lit "out_format") = some (.str v)) :
    popFmt (setPipes kwargs) posFmt =
      (KwVal.str v, setPipes (delKey kwargs (lit "out_format"))) := by
  unfold popFmt
  rw [getKey_setPipes _ _ (by decide) (by decide) (by decide), hkw,
    delKey_setPipes _ _ (by decide) (by decide) (by decide)]

theorem run_command_list_result {α β : Type}
    (jsonLoads : Str → Except Unit α) (yamlLoad : Str → Except Unit β)
    (cmd : CmdInput) (timeout : Nat) (secrets : List Str) (ignore_error : Bool)
    (kwargs : Kwargs) (cp : CP)
    (hcmd : ∀ r, cmd ≠ .other r) (hrc : cp.returncode = 0)
    (hkw : getKey kwargs (lit "out_format") = none) :
    (run_command jsonLoads yamlLoad cmd timeout (lit "list") secrets ignore_error kwargs
        (fun _ => cp)).result = .ok (.list ((splitNl cp.stdout).dropLast)) := by
  have hpop := getKey_popFmt_none kwargs (lit "list") hkw
  have hne := splitNl_ne_nil cp.stdout
  cases cmd with
  | other r => exact absurd rfl (hcmd r)
  | str s =>
    simp [run_command, run_body, hpop, hrc]
    simp [pyPop, List.isEmpty_iff, hne]
    rw [if_neg (by decide), if_neg (by decide)]
  | list l =>
    simp [run_command, run_body, hpop, hrc]
    simp [pyPop, List.isEmpty_iff, hne]
    rw [if_neg (by decide), if_neg (by decide)]

/-- C1: when the spawned process exits with a non-zero code and `ignore_error`
is false, `run_command` raises exactly `CommandFailed`, whose message contains
the masked command and the masked standard error, and nothing else is raised
in that situation (lines 121-128 of the source). -/
theorem run_command_nonzero_raises {α β : Type}
    (jsonLoads : Str → Except Unit α) (yamlLoad : Str → Except Unit β)
    (cmd : CmdInput) (timeout : Nat) (out_format : Str) (secrets : List Str)
    (kwargs : Kwargs) (cp : CP)
    (hcmd : ∀ r, cmd ≠ .other r) (hrc : cp.returncode ≠ 0) :
    (run_command jsonLoads yamlLoad cmd timeout out_format secrets false kwargs
        (fun _ => cp)).result =
      .error (.commandFailed
        (lit "Error during execution of command: " ++ renderCmd (maskCmd cmd secrets) ++
          lit ".\nError is " ++ mask_secrets cp.stderr secrets)) ∧
    renderCmd (maskCmd cmd secrets) <:+:
      (lit "Error during execution of command: " ++ renderCmd (maskCmd cmd secrets) ++
        lit ".\nError is " ++ mask_secrets cp.stderr secrets) ∧
    mask_secrets cp.stderr secrets <:+:
      (lit "Error during execution of command: " ++ renderCmd (maskCmd cmd secrets) ++
        lit ".\nError is " ++ mask_secrets cp.stderr secrets) := by
  refine ⟨?_, ?_, ?_⟩
  · cases cmd with
    | other r => exact absurd rfl (hcmd r)
    | str s =>
      simp [run_command, run_body, hrc]
    | list l =>
      simp [run_command, run_body, hrc]
  · exact ⟨lit "Error during execution of command: ",
      lit ".\nError is " ++ mask_secrets cp.stderr secrets, by simp⟩
  · exact ⟨lit "Error during execution of command: " ++ renderCmd (maskCmd cmd secrets) ++
      lit ".\nError is ", [], by simp⟩

/-- Witness for C1: a concrete failing command with a secret in stderr. -/
theorem run_command_nonzero_raises_witness :
    (run_command noParse noParse (.str (lit "x")) 600 (lit "string") [lit "boom"] false []
        (fun _ => ⟨[lit "x"], 1, [], lit "boom"⟩)).result =
      .error (.commandFailed
        (lit "Error during execution of command: x.\nError is *****")) :=
  (run_command_nonzero_raises noParse noParse (.str (lit "x")) 600 (lit "string")
    [lit "boom"] [] ⟨[lit "x"], 1, [], lit "boom"⟩ (fun _ h => CmdInput.noConfusion h)
    (by decide)).1

/-- Counterexample for C2: with secrets `["boom"]` and a failing process whose
stderr is `"boom"`, the error-level log message emitted at line 122 of the
source interpolates the raw stderr and therefore contains the secret. -/
theorem run_command_error_log_leaks_secret :
    LogMsg.mk .error (lit "Command finished with non zero (1): boom") ∈
      (run_command noParse noParse (.str (lit "x")) 600 (lit "string") [lit "boom"] false []
        (fun _ => ⟨[lit "x"], 1, [], lit "boom"⟩)).logs ∧
    lit "boom" <:+: lit "Command finished with non zero (1): boom" := by decide

/-- C2 (amended): every message logged at a level other than error embeds the
command, stdout and stderr only through `mask_secrets`, and for secrets that
are non-empty and asterisk-free the masked texts contain no secret as a
substring; the error-level log on a non-zero exit, by contrast, interpolates
the raw stderr (see the counterexample). -/
theorem run_command_masks_nonerror_logs {α β : Type}
    (jsonLoads : Str → Except Unit α) (yamlLoad : Str → Except Unit β)
    (cmd : CmdInput) (timeout : Nat) (out_format : Str) (secrets : List Str)
    (ignore_error : Bool) (kwargs : Kwargs) (cp : CP)
    (hsec : ∀ q ∈ secrets, q ≠ [] ∧ ∀ c ∈ q, c ≠ '*') :
    (∀ m ∈ (run_command jsonLoads yamlLoad cmd timeout out_format secrets ignore_error
        kwargs (fun _ => cp)).logs,
      m.level ≠ .error → m.msg ∈ maskedLogForms cmd secrets out_format kwargs cp) ∧
    (∀ q ∈ secrets, ∀ x : Str, ¬ q <:+: mask_secrets x secrets) := by
  refine ⟨?_, secret_not_infix_mask hsec⟩
  intro m hm hlev
  cases cmd with
  | other r =>
    simp only [run_command, List.mem_singleton] at hm
    subst hm
    simp [maskedLogForms]
  | str s =>
    simp only [run_command, run_body] at hm
    rcases List.mem_append.mp hm with hm | hm
    · simp only [List.mem_cons, List.not_mem_nil, or_false] at hm
      rcases hm with hm | hm | hm | hm | hm
      · subst hm; simp [maskedLogForms]
      · subst hm; simp [maskedLogForms]
      · split at hm <;> (subst hm; simp [maskedLogForms])
      · split at hm <;> (subst hm; simp [maskedLogForms])
      · subst hm; simp [maskedLogForms]
    · split at hm
      · simp only [List.mem_singleton] at hm
        subst hm
        exact absurd rfl hlev
      · simp at hm
  | list l =>
    simp only [run_command, run_body] at hm
    rcases List.mem_append.mp hm with hm | hm
    · simp only [List.mem_cons, List.not_mem_nil, or_false] at hm
      rcases hm with hm | hm | hm | hm | hm
      · subst hm; simp [maskedLogForms]
      · subst hm; simp [maskedLogForms]
      · split at hm <;> (subst hm; simp [maskedLogForms])
      · split at hm <;> (subst hm; simp [maskedLogForms])
      · subst hm; simp [maskedLogForms]
    · split at hm
      · simp only [List.mem_singleton] at hm
        subst hm
        exact absurd rfl hlev
      · simp at hm

/-- Witness for C2 (amended): a concrete run whose warning-level stderr log is
one of the masked forms. -/
theorem run_command_masks_nonerror_logs_witness :
    (lit "Command stderr: " ++ mask_secrets (lit "boom") [lit "boom"]) ∈
      maskedLogForms (.str (lit "x")) [lit "boom"] (lit "string") []
        ⟨[lit "x"], 1, [], lit "boom"⟩ :=
  (run_command_masks_nonerror_logs noParse noParse (.str (lit "x")) 600 (lit "string")
      [lit "boom"] false [] ⟨[lit "x"], 1, [], lit "boom"⟩ (by decide)).1
    ⟨.warning, lit "Command stderr: " ++ mask_secrets (lit "boom") [lit "boom"]⟩
    (by decide) (by decide)

/-- C3: on a non-zero exit with `ignore_error` true, no error is raised:
`run_command` returns the raw `CompletedProcess` when the output format is
"cpobj", and otherwise the decoded stdout with the appended annotation naming
the exit code and the raw stderr (lines 121-131 of the source). -/
theorem run_command_ignore_error_nonzero {α β : Type}
    (jsonLoads : Str → Except Unit α) (yamlLoad : Str → Except Unit β)
    (cmd : CmdInput) (timeout : Nat) (out_format : Str) (secrets : List Str)
    (kwargs : Kwargs) (cp : CP)
    (hcmd : ∀ r, cmd ≠ .other r) (hrc : cp.returncode ≠ 0)
    (hkw : getKey kwargs (lit "out_format") = none) :
    (run_command jsonLoads yamlLoad cmd timeout out_format secrets true kwargs
        (fun _ => cp)).result =
      (if out_format = lit "cpobj" then .ok (.cpobj cp)
       else .ok (.str (cp.stdout ++ lit "Error in command (" ++ fmtInt cp.returncode ++
         lit "): " ++ cp.stderr))) := by
  have hpop := getKey_popFmt_none kwargs out_format hkw
  cases cmd with
  | other r => exact absurd rfl (hcmd r)
  | str s =>
    simp only [run_command, run_body, hpop]
    simp [hrc, KwVal.str.injEq, apply_ite RunOutcome.result]
  | list l =>
    simp only [run_command, run_body, hpop]
    simp [hrc, KwVal.str.injEq, apply_ite RunOutcome.result]

/-- Witness for C3: a concrete failing command with `ignore_error` true and
text output format returns the annotated stdout. -/
theorem run_command_ignore_error_nonzero_witness :
    (run_command noParse noParse (.str (lit "x")) 600 (lit "string") [] true []
        (fun _ => ⟨[lit "x"], 1, lit "out", lit "boom"⟩)).result =
      .ok (.str (lit "outError in command (1): boom")) := by
  have h := run_command_ignore_error_nonzero noParse noParse (.str (lit "x")) 600
    (lit "string") [] [] ⟨[lit "x"], 1, lit "out", lit "boom"⟩
    (fun _ h => CmdInput.noConfusion h) (by decide) rfl
  rw [if_neg (by decide)] at h
  exact h

/-- Counterexample for C4: with exit code 0 and stdout `"a\nb"` (no trailing
newline), the "list" output format drops the final content line `"b"`: the
unconditional `pop` at line 141 of the source removes the last element, not
just a trailing empty element. -/
theorem run_command_list_drops_content_line :
    (run_command noParse noParse (.str (lit "c")) 600 (lit "list") [] false []
        (fun _ => ⟨[lit "c"], 0, lit "a\nb", []⟩)).result = .ok (.list [lit "a"]) ∧
    (run_command noParse noParse (.str (lit "c")) 600 (lit "list") [] false []
        (fun _ => ⟨[lit "c"], 0, lit "a\nb", []⟩)).result ≠
      .ok (.list [lit "a", lit "b"]) := by decide

/-- C4 (amended): with exit code 0 and the "list" output format, the return
value is the decoded stdout split on newlines with the last element removed
unconditionally; when stdout ends in a newline the removed element is exactly
the trailing empty piece (so `"a\nb\nc\n"` yields `["a","b","c"]`), but when
it does not, the final content line is dropped (see the counterexample). -/
theorem run_command_list_pops_last {α β : Type}
    (jsonLoads : Str → Except Unit α) (yamlLoad : Str → Except Unit β)
    (cmd : CmdInput) (timeout : Nat) (secrets : List Str) (ignore_error : Bool)
    (kwargs : Kwargs) (cp : CP)
    (hcmd : ∀ r, cmd ≠ .other r) (hrc : cp.returncode = 0)
    (hkw : getKey kwargs (lit "out_format") = none) :
    (run_command jsonLoads yamlLoad cmd timeout (lit "list") secrets ignore_error kwargs
        (fun _ => cp)).result = .ok (.list ((splitNl cp.stdout).dropLast)) ∧
    (∀ A, cp.stdout = A ++ ['\n'] → (splitNl cp.stdout).dropLast = splitNl A) := by
  constructor
  · exact run_command_list_result jsonLoads yamlLoad cmd timeout secrets ignore_error
      kwargs cp hcmd hrc hkw
  · intro A hA
    rw [hA, splitNl_append_newline]
    simp

/-- Witness for C4 (amended): stdout `"a\nb\nc\n"` yields `["a","b","c"]`. -/
theorem run_command_list_pops_last_witness :
    (run_command noParse noParse (.str (lit "c")) 600 (lit "list") [] false []
        (fun _ => ⟨[lit "c"], 0, lit "a\nb\nc\n", []⟩)).result =
      .ok (.list [lit "a", lit "b", lit "c"]) :=
  (run_command_list_pops_last noParse noParse (.str (lit "c")) 600 [] false []
    ⟨[lit "c"], 0, lit "a\nb\nc\n", []⟩ (fun _ h => CmdInput.noConfusion h) rfl rfl).1

/-- C5: for an input that is neither a string nor a list, `run_command`
returns the literal string "Error in command" after logging the command,
spawning no process and raising no error (lines 87-92 of the source). -/
theorem run_command_bad_input_sentinel {α β : Type}
    (jsonLoads : Str → Except Unit α) (yamlLoad : Str → Except Unit β) (r : Str)
    (timeout : Nat) (out_format : Str) (secrets : List Str) (ignore_error : Bool)
    (kwargs : Kwargs) (spawn : SpawnCall → CP) :
    run_command jsonLoads yamlLoad (.other r) timeout out_format secrets ignore_error
        kwargs spawn =
      ⟨.ok (.str (lit "Error in command")), none,
        [⟨.info, lit "Executing command: " ++ r⟩]⟩ := rfl

/-- C6: a value stored under the reserved key "out_format" in the options bag
supersedes the positional output-format argument, and the key is removed from
the options forwarded to the spawn call (lines 97-99 of the source). -/
theorem run_command_kwargs_out_format_precedence {α β : Type}
    (jsonLoads : Str → Except Unit α) (yamlLoad : Str → Except Unit β)
    (cmd : CmdInput) (timeout : Nat) (out_format : Str) (secrets : List Str)
    (ignore_error : Bool) (kwargs : Kwargs) (spawn : SpawnCall → CP) (v : Str)
    (hkw : getKey kwargs (lit "out_format") = some (.str v)) :
    run_command jsonLoads yamlLoad cmd timeout out_format secrets ignore_error kwargs
        spawn =
      run_command jsonLoads yamlLoad cmd timeout v secrets ignore_error
        (delKey kwargs (lit "out_format")) spawn ∧
    (∀ sc, (run_command jsonLoads yamlLoad cmd timeout out_format secrets ignore_error
        kwargs spawn).spawned = some sc → getKey sc.kwargs (lit "out_format") = none) := by
  have h1 := popFmt_setPipes_str kwargs out_format v hkw
  have h2 : popFmt (setPipes (delKey kwargs (lit "out_format"))) v =
      (KwVal.str v, setPipes (delKey kwargs (lit "out_format"))) := by
    unfold popFmt
    rw [getKey_setPipes _ _ (by decide) (by decide) (by decide), getKey_delKey_self]
  constructor
  · cases cmd with
    | other r => rfl
    | str s => simp only [run_command, run_body, h1, h2]
    | list l => simp only [run_command, run_body, h1, h2]
  · intro sc hsc
    cases cmd with
    | other r => simp [run_command] at hsc
    | str s =>
      simp only [run_command, run_body, h1] at hsc
      have hsc2 : sc = ⟨pySplit s, timeout, setPipes (delKey kwargs (lit "out_format"))⟩ := by
        simp_all
      rw [hsc2]
      exact (getKey_setPipes _ _ (by decide) (by decide) (by decide)).trans
        (getKey_delKey_self _ _)
    | list l =>
      simp only [run_command, run_body, h1] at hsc
      have hsc2 : sc = ⟨l, timeout, setPipes (delKey kwargs (lit "out_format"))⟩ := by
        simp_all
      rw [hsc2]
      exact (getKey_setPipes _ _ (by decide) (by decide) (by decide)).trans
        (getKey_delKey_self _ _)

/-- Witness for C6: an options bag carrying "out_format" makes the call behave
exactly like the call with that positional format and the key deleted. -/
theorem run_command_kwargs_out_format_precedence_witness :
    run_command noParse noParse (.str (lit "x")) 600 (lit "string") [] false
        [(lit "out_format", KwVal.str (lit "exit_code"))] (fun _ => ⟨[lit "x"], 0, [], []⟩) =
      run_command noParse noParse (.str (lit "x")) 600 (lit "exit_code") [] false
        (delKey [(lit "out_format", KwVal.str (lit "exit_code"))] (lit "out_format"))
        (fun _ => ⟨[lit "x"], 0, [], []⟩) :=
  (run_command_kwargs_out_format_precedence noParse noParse (.str (lit "x")) 600
      (lit "string") [] false [(lit "out_format", KwVal.str (lit "exit_code"))]
      (fun _ => ⟨[lit "x"], 0, [], []⟩) (lit "exit_code") rfl).1

/-- Counterexample for C7: a whitespace-joined string command and its
pre-split list produce the same spawn invocation, yet with a failing process
and `ignore_error` false the overall results differ, because the raised
`CommandFailed` message renders the command in its given form (plain string
versus Python list rendering). -/
theorem run_command_str_vs_list_raise_message_differs :
    (run_command noParse noParse (.str (lit "x")) 600 (lit "string") [] false []
        (fun _ => ⟨[lit "x"], 1, [], []⟩)).spawned =
      (run_command noParse noParse (.list [lit "x"]) 600 (lit "string") [] false []
        (fun _ => ⟨[lit "x"], 1, [], []⟩)).spawned ∧
    (run_command noParse noParse (.str (lit "x")) 600 (lit "string") [] false []
        (fun _ => ⟨[lit "x"], 1, [], []⟩)).result ≠
      (run_command noParse noParse (.list [lit "x"]) 600 (lit "string") [] false []
        (fun _ => ⟨[lit "x"], 1, [], []⟩)).result := by decide

/-- C7 (amended): for well-formed tokens (non-empty, whitespace-free), running
the whitespace-joined string command produces exactly the same child-process
invocation as running the pre-split list, and the same result whenever the
call returns normally (exit code 0, or `ignore_error` true); on the raising
path both raise `CommandFailed`, whose messages differ only in how the
command is rendered (see the counterexample). -/
theorem run_command_str_list_same_invocation {α β : Type}
    (jsonLoads : Str → Except Unit α) (yamlLoad : Str → Except Unit β)
    (toks : List Str) (timeout : Nat) (out_format : Str) (secrets : List Str)
    (ignore_error : Bool) (kwargs : Kwargs) (spawn : SpawnCall → CP)
    (htoks : ∀ t ∈ toks, t ≠ [] ∧ ∀ c ∈ t, isPySpace c = false) :
    (run_command jsonLoads yamlLoad (.str (joinSp toks)) timeout out_format secrets
        ignore_error kwargs spawn).spawned =
      (run_command jsonLoads yamlLoad (.list toks) timeout out_format secrets
        ignore_error kwargs spawn).spawned ∧
    (∀ sc,
      (run_command jsonLoads yamlLoad (.list toks) timeout out_format secrets
          ignore_error kwargs spawn).spawned = some sc →
      (spawn sc).returncode = 0 ∨ ignore_error = true →
      (run_command jsonLoads yamlLoad (.str (joinSp toks)) timeout out_format secrets
          ignore_error kwargs spawn).result =
        (run_command jsonLoads yamlLoad (.list toks) timeout out_format secrets
          ignore_error kwargs spawn).result) := by
  have hargv : pySplit (joinSp toks) = toks := pySplit_joinSp toks htoks
  constructor
  · simp only [run_command, run_body, hargv]
  · intro sc hsc hok
    simp only [run_command, run_body] at hsc
    have hsc2 : sc = ⟨toks, timeout, (popFmt (setPipes kwargs) out_format).2⟩ := by
      simp_all
    subst hsc2
    simp only [run_command, run_body, hargv, apply_ite RunOutcome.result]
    rcases hok with hok | hok
    · simp [hok]
    · subst hok
      simp

/-- Witness for C7 (amended): `"echo hi"` and `["echo","hi"]` give the same
result on a successful run. -/
theorem run_command_str_list_same_invocation_witness :
    (run_command noParse noParse (.str (joinSp [lit "echo", lit "hi"])) 600 (lit "string")
        [] false [] (fun _ => ⟨[lit "echo", lit "hi"], 0, lit "o", []⟩)).result =
      (run_command noParse noParse (.list [lit "echo", lit "hi"]) 600 (lit "string") []
        false [] (fun _ => ⟨[lit "echo", lit "hi"], 0, lit "o", []⟩)).result :=
  (run_command_str_list_same_invocation noParse noParse [lit "echo", lit "hi"] 600
      (lit "string") [] false [] (fun _ => ⟨[lit "echo", lit "hi"], 0, lit "o", []⟩)
      (by decide)).2
    ⟨[lit "echo", lit "hi"], 600, setPipes []⟩ (by decide) (Or.inl rfl)

/-- C8: masking never alters the returned data: with output format "string"
and exit code 0, the returned string is exactly the raw decoded stdout — even
when secrets occur in it — with no error annotation (lines 103-106 and
132-149 of the source). -/
theorem run_command_string_fmt_raw_stdout {α β : Type}
    (jsonLoads : Str → Except Unit α) (yamlLoad : Str → Except Unit β)
    (cmd : CmdInput) (timeout : Nat) (secrets : List Str) (ignore_error : Bool)
    (kwargs : Kwargs) (cp : CP)
    (hcmd : ∀ r, cmd ≠ .other r) (hrc : cp.returncode = 0)
    (hkw : getKey kwargs (lit "out_format") = none) :
    (run_command jsonLoads yamlLoad cmd timeout (lit "string") secrets ignore_error kwargs
        (fun _ => cp)).result = .ok (.str cp.stdout) := by
  have hpop := getKey_popFmt_none kwargs (lit "string") hkw
  cases cmd with
  | other r => exact absurd rfl (hcmd r)
  | str s =>
    simp [run_command, run_body, hpop, hrc]
    rw [if_neg (by decide), if_neg (by decide), if_neg (by decide), if_neg (by decide),
      if_neg (by decide)]
  | list l =>
    simp [run_command, run_body, hpop, hrc]
    rw [if_neg (by decide), if_neg (by decide), if_neg (by decide), if_neg (by decide),
      if_neg (by decide)]

/-- Witness for C8: a secret occurring in stdout is returned unmasked. -/
theorem run_command_string_fmt_raw_stdout_witness :
    (run_command noParse noParse (.str (lit "x")) 600 (lit "string") [lit "boom"] false []
        (fun _ => ⟨[lit "x"], 0, lit "a boom b", []⟩)).result =
      .ok (.str (lit "a boom b")) :=
  run_command_string_fmt_raw_stdout noParse noParse (.str (lit "x")) 600 [lit "boom"]
    false [] ⟨[lit "x"], 0, lit "a boom b", []⟩ (fun _ h => CmdInput.noConfusion h) rfl rfl

/-- C9: whenever `run_command` returns an exit code, that exit code is 0: the
exit-code return path is reachable only in the zero-exit branch of line 121
of the source. -/
theorem run_command_exit_code_always_zero {α β : Type}
    (jsonLoads : Str → Except Unit α) (yamlLoad : Str → Except Unit β)
    (cmd : CmdInput) (timeout : Nat) (out_format : Str) (secrets : List Str)
    (ignore_error : Bool) (kwargs : Kwargs) (spawn : SpawnCall → CP) (n : Int)
    (h : (run_command jsonLoads yamlLoad cmd timeout out_format secrets ignore_error kwargs
        spawn).result = .ok (.exitCode n)) :
    n = 0 := by
  cases cmd with
  | other r => simp [run_command] at h
  | str s =>
    simp only [run_command, run_body] at h
    repeat' split at h
    all_goals simp_all
  | list l =>
    simp only [run_command, run_body] at h
    repeat' split at h
    all_goals simp_all

/-- Witness for C9: a zero-exit run under the "exit_code" format returns the
integer 0, to which the theorem applies. -/
theorem run_command_exit_code_always_zero_witness :
    (run_command noParse noParse (.str (lit "x")) 600 (lit "exit_code") [] false []
        (fun _ => ⟨[lit "x"], 0, lit "o", []⟩)).result = .ok (.exitCode 0) ∧ (0 : Int) = 0 :=
  ⟨by decide,
    run_command_exit_code_always_zero noParse noParse (.str (lit "x")) 600 (lit "exit_code")
      [] false [] (fun _ => ⟨[lit "x"], 0, lit "o", []⟩) 0 (by decide)⟩

/-- C10: splitting any string on newline always yields at least one element,
so the unconditional removal of the last element in the "list" output format
can never raise `IndexError`; in particular a zero-exit run with empty stdout
returns the empty list rather than erroring (lines 139-141 of the source). -/
theorem run_command_list_pop_never_fails {α β : Type}
    (jsonLoads : Str → Except Unit α) (yamlLoad : Str → Except Unit β) :
    (∀ s : Str, splitNl s ≠ []) ∧
    (∀ (cmd : CmdInput) (timeout : Nat) (out_format : Str) (secrets : List Str)
        (ignore_error : Bool) (kwargs : Kwargs) (spawn : SpawnCall → CP),
      (run_command jsonLoads yamlLoad cmd timeout out_format secrets ignore_error kwargs
          spawn).result ≠ .error .indexError) ∧
    (∀ (cmd : CmdInput) (timeout : Nat) (secrets : List Str) (ignore_error : Bool)
        (kwargs : Kwargs) (cp : CP),
      (∀ r, cmd ≠ .other r) → cp.returncode = 0 → cp.stdout = [] →
      getKey kwargs (lit "out_format") = none →
      (run_command jsonLoads yamlLoad cmd timeout (lit "list") secrets ignore_error kwargs
          (fun _ => cp)).result = .ok (.list [])) := by
  refine ⟨splitNl_ne_nil, ?_, ?_⟩
  · intro cmd timeout out_format secrets ignore_error kwargs spawn h
    cases cmd with
    | other r => simp [run_command] at h
    | str s =>
      simp only [run_command, run_body, apply_ite RunOutcome.result] at h
      repeat' split at h
      all_goals simp_all [pyPop, List.isEmpty_iff, splitNl_ne_nil]
    | list l =>
      simp only [run_command, run_body, apply_ite RunOutcome.result] at h
      repeat' split at h
      all_goals simp_all [pyPop, List.isEmpty_iff, splitNl_ne_nil]
  · intro cmd timeout secrets ignore_error kwargs cp hcmd hrc hout hkw
    have h := run_command_list_result jsonLoads yamlLoad cmd timeout secrets ignore_error
      kwargs cp hcmd hrc hkw
    rw [h, hout]
    rfl

/-- Witness for C10: a zero-exit run with empty stdout under the "list"
format returns the empty list. -/
theorem run_command_list_pop_never_fails_witness :
    (run_command noParse noParse (.str (lit "x")) 600 (lit "list") [] false []
        (fun _ => ⟨[lit "x"], 0, [], []⟩)).result = .ok (.list []) :=
  (run_command_list_pop_never_fails noParse noParse).2.2 (.str (lit "x")) 600 [] false []
    ⟨[lit "x"], 0, [], []⟩ (fun _ h => CmdInput.noConfusion h) rfl rfl rfl
